import Mathlib

/-!
Verification of `PrepareChain.py` (Markov-chain triplet preparation).

The Python module turns a document into sentences (`_divide`), each sentence
into a morpheme list (external MeCab analyzer, modelled as a parameter),
each morpheme list into a per-sentence triplet frequency dictionary
(`_make_triplet`), aggregates the per-sentence dictionaries
(`make_triplet_freqs`) and persists the result (`save`).

Modelling conventions:
* Python `unicode` strings are `List Char` for the segmentation layer and
  `String` for morphemes/triplets.
* A Python `dict` / `defaultdict(int)` is an association list
  `List (Triplet × Nat)` with unique keys maintained by `setVal`;
  `getVal` is lookup with default `0` (the `defaultdict` default),
  `incrBy` is `d[k] += n`, `setVal` is `d[k] = v`.
* `unicode.splitlines` is modelled on the full Unicode line-boundary class
  of Python 2 (`\n`, `\r\n`, `\r`, `\x0b`, `\x0c`, `\x1c`-`\x1e`, `\x85`,
  U+2028, U+2029); `unicode.strip` on Python 2's Unicode whitespace class.
* The sqlite layer of `save` is modelled as the list of completed store
  operations together with a success flag; the fallibility of the external
  schema-script execution and of the row insertion is an explicit input.
-/

/-! ## Sentinel constants (`PrepareChain.BEGIN`, `PrepareChain.END`) -/

def BEGIN : String := "__BEGIN_SENTENCE__"

def END : String := "__END_SENTENCE__"

abbrev Triplet := String × String × String

abbrev FreqMap := List (Triplet × Nat)

/-! ## Dictionary operations (model of the Python `dict` used by the source) -/

/-- Lookup with default 0: the read side of `defaultdict(int)`. -/
def getVal : FreqMap → Triplet → Nat
  | [], _ => 0
  | e :: rest, k => if e.1 = k then e.2 else getVal rest k

/-- Dictionary assignment `d[k] = v`: replaces the value of an existing key,
otherwise appends the new entry. -/
def setVal : FreqMap → Triplet → Nat → FreqMap
  | [], k, v => [(k, v)]
  | e :: rest, k, v => if e.1 = k then (k, v) :: rest else e :: setVal rest k v

/-- Dictionary increment `d[k] += n` of a `defaultdict(int)`. -/
def incrBy (m : FreqMap) (k : Triplet) (n : Nat) : FreqMap :=
  setVal m k (getVal m k + n)

/-- Dictionary increment `d[k] += 1` of a `defaultdict(int)`. -/
def incr (m : FreqMap) (k : Triplet) : FreqMap := incrBy m k 1

def keysOf (m : FreqMap) : List Triplet := m.map (·.1)

/-- Sum of all stored counts of a frequency dictionary. -/
def totalVal (m : FreqMap) : Nat := (m.map (·.2)).sum

/-! ## `PrepareChain._divide` -/

/-- Delimiter class of `_divide`: the regex `。|．|\.`. -/
def isDelim (c : Char) : Bool := c == '。' || c == '．' || c == '.'

/-- Model of `re.sub(u"({0})".format(delimiter), r"\1\n", text)`: a line break
is inserted immediately after every delimiter occurrence. -/
def subDelims : List Char → List Char
  | [] => []
  | c :: rest => if isDelim c then c :: '\n' :: subDelims rest else c :: subDelims rest

/-- Prepend a character to the first line of a line list (or start one). -/
def consHead (c : Char) : List (List Char) → List (List Char)
  | [] => [[c]]
  | l :: ls => (c :: l) :: ls

/-- Line-boundary characters of Python 2 `unicode.splitlines()`: line feed,
vertical tab, form feed, carriage return, the three information separators
FS/GS/RS, next line (NEL), line separator and paragraph separator. -/
def isLineBreak (c : Char) : Bool :=
  c == '\n' || c == '\x0b' || c == '\x0c' || c == '\r' || c == '\x1c' || c == '\x1d'
    || c == '\x1e' || c == '\x85' || c == '\u2028' || c == '\u2029'

/-- Model of `unicode.splitlines()`: split on every Unicode line boundary,
with `\r\n` consumed as a single boundary; a trailing line boundary produces
no trailing empty line, the empty string produces no lines. -/
def splitlines : List Char → List (List Char)
  | [] => []
  | [c] => if isLineBreak c then [[]] else [[c]]
  | c :: d :: rest =>
    if c = '\r' then
      if d = '\n' then [] :: splitlines rest else [] :: splitlines (d :: rest)
    else if isLineBreak c then [] :: splitlines (d :: rest)
    else consHead c (splitlines (d :: rest))

/-- Unicode whitespace class of Python 2 `unicode.strip()`: tab through
carriage return, the separators `\x1c`-`\x1f`, space, NEL, no-break space,
Ogham space mark, Mongolian vowel separator (whitespace in the Unicode
version shipped with Python 2), the en-quad to hair-space range, line and
paragraph separators, narrow no-break space, medium mathematical space and
ideographic space. -/
def isPySpace (c : Char) : Bool :=
  c == '\t' || c == '\n' || c == '\x0b' || c == '\x0c' || c == '\r'
    || c == '\x1c' || c == '\x1d' || c == '\x1e' || c == '\x1f' || c == ' '
    || c == '\x85' || c == '\xa0' || c == '\u1680' || c == '\u180e'
    || (0x2000 ≤ c.toNat && c.toNat ≤ 0x200a)
    || c == '\u2028' || c == '\u2029' || c == '\u202f' || c == '\u205f' || c == '\u3000'

/-- Model of `unicode.strip()`: removes leading and trailing whitespace. -/
def strip (l : List Char) : List Char :=
  ((l.dropWhile isPySpace).reverse.dropWhile isPySpace).reverse

/-- Model of `PrepareChain._divide`: insert a line break after every
delimiter, split on line breaks, strip every resulting piece. -/
def divide (text : List Char) : List (List Char) :=
  (splitlines (subDelims text)).map strip

/-! ## `PrepareChain._make_triplet` -/

/-- The window `tuple(morphemes[i:i+3])` taken by the sliding-window loop. -/
def tripletAt (morphemes : List String) (i : Nat) : Triplet :=
  (morphemes.getD i "", morphemes.getD (i + 1) "", morphemes.getD (i + 2) "")

/-- The sliding-window loop of `_make_triplet`:
`for i in xrange(len(morphemes)-2): triplet_freqs[tuple(morphemes[i:i+3])] += 1`. -/
def windowCounts (morphemes : List String) : FreqMap :=
  (List.range (morphemes.length - 2)).foldl (fun m i => incr m (tripletAt morphemes i)) []

/-- Model of `PrepareChain._make_triplet`: empty dictionary for fewer than 3
morphemes, otherwise the sliding-window counts followed by the two sentinel
assignments (plain assignments of the value 1, not increments). -/
def make_triplet (morphemes : List String) : FreqMap :=
  if morphemes.length < 3 then []
  else
    setVal
      (setVal (windowCounts morphemes) (BEGIN, morphemes.getD 0 "", morphemes.getD 1 "") 1)
      (morphemes.getD (morphemes.length - 2) "", morphemes.getD (morphemes.length - 1) "", END)
      1

/-! ## `PrepareChain.make_triplet_freqs`

The morphological analyzer (`_morphological_analysis`, wrapping MeCab) is an
external collaborator; it enters the model as the `tokenize` parameter. -/

/-- Model of `PrepareChain.make_triplet_freqs`: divide the text into
sentences, tokenize each sentence, build its per-sentence dictionary and add
every `(triplet, n)` entry into the corpus-wide `defaultdict(int)`. -/
def make_triplet_freqs (tokenize : List Char → List String) (text : List Char) : FreqMap :=
  (divide text).foldl
    (fun freqs sentence =>
      (make_triplet (tokenize sentence)).foldl (fun fs e => incrBy fs e.1 e.2) freqs)
    []

/-! ## `PrepareChain.save`

`save` opens a sqlite connection, optionally (on `init=True`) runs the
external schema script and inserts one row per dictionary entry, then commits
and closes.  The Python function has no `try/finally`: an exception raised by
the schema-script execution or by the insertion propagates before
`con.close()` is reached.  The model records the list of completed store
operations and whether the call returned normally; the success of the two
fallible external steps is an explicit input (`sOk`: opening/reading the
schema file and `executescript` succeed, `iOk`: `executemany` succeeds). -/

inductive DBEvent where
  | connect : DBEvent
  | execScript : DBEvent
  | insertRows : List (String × String × String × Nat) → DBEvent
  | commit : DBEvent
  | close : DBEvent
deriving DecidableEq, Repr

/-- The row list `datas` built by `save`: one `(triplet[0], triplet[1],
triplet[2], freq)` row per dictionary entry. -/
def saveRows (triplet_freqs : FreqMap) : List (String × String × String × Nat) :=
  triplet_freqs.map (fun e => (e.1.1, e.1.2.1, e.1.2.2, e.2))

/-- Model of `PrepareChain.save`: completed store operations, paired with
`true` when the call returns normally and `false` when an exception
propagates to the caller. -/
def save (triplet_freqs : FreqMap) (init sOk iOk : Bool) : List DBEvent × Bool :=
  if init then
    if !sOk then ([DBEvent.connect], false)
    else if !iOk then ([DBEvent.connect, DBEvent.execScript], false)
    else
      ([DBEvent.connect, DBEvent.execScript, DBEvent.insertRows (saveRows triplet_freqs),
        DBEvent.commit, DBEvent.close], true)
  else ([DBEvent.connect, DBEvent.commit, DBEvent.close], true)

/-- Store operations that can change the stored table. -/
def isMutation : DBEvent → Bool
  | DBEvent.execScript => true
  | DBEvent.insertRows _ => true
  | _ => false

/-- Effect of one completed store operation on the stored rows; the effect of
the external schema script is the parameter `schemaEff`. -/
def applyEvent (schemaEff : List (String × String × String × Nat) → List (String × String × String × Nat))
    (rows : List (String × String × String × Nat)) : DBEvent → List (String × String × String × Nat)
  | DBEvent.execScript => schemaEff rows
  | DBEvent.insertRows rs => rows ++ rs
  | _ => rows

/-- Effect of a sequence of completed store operations on the stored rows. -/
def applyEvents (schemaEff : List (String × String × String × Nat) → List (String × String × String × Nat))
    (evs : List DBEvent) (rows : List (String × String × String × Nat)) :
    List (String × String × String × Nat) :=
  evs.foldl (applyEvent schemaEff) rows

/-! ## Dictionary lemmas -/

theorem getVal_setVal (m : FreqMap) (k : Triplet) (v : Nat) (a : Triplet) :
    getVal (setVal m k v) a = if a = k then v else getVal m a := by
  induction m with
  | nil =>
    by_cases h : a = k
    · subst h; simp [setVal, getVal]
    · simp [setVal, getVal, h, Ne.symm h]
  | cons e rest ih =>
    by_cases he : e.1 = k
    · by_cases ha : a = k
      · subst ha; simp [setVal, getVal, he]
      · simp only [setVal, if_pos he, getVal]
        have h1 : ¬ k = a := Ne.symm ha
        have h2 : ¬ e.1 = a := by rw [he]; exact h1
        rw [if_neg h1, if_neg ha, if_neg h2]
    · simp only [setVal, if_neg he, getVal]
      by_cases hea : e.1 = a
      · have hak : ¬ a = k := fun h => he (hea.trans h)
        rw [if_pos hea, if_neg hak, if_pos hea]
      · rw [if_neg hea, ih]
        by_cases hak : a = k <;> simp [hak, hea]

theorem getVal_incrBy (m : FreqMap) (k : Triplet) (n : Nat) (a : Triplet) :
    getVal (incrBy m k n) a = if a = k then getVal m k + n else getVal m a := by
  simp [incrBy, getVal_setVal]

theorem getVal_incr (m : FreqMap) (k : Triplet) (a : Triplet) :
    getVal (incr m k) a = if a = k then getVal m k + 1 else getVal m a := by
  simp [incr, getVal_incrBy]

theorem incrBy_cons_ne (e : Triplet × Nat) (rest : FreqMap) (k : Triplet) (n : Nat)
    (h : e.1 ≠ k) : incrBy (e :: rest) k n = e :: incrBy rest k n := by
  simp [incrBy, setVal, getVal, h]

theorem totalVal_incrBy (m : FreqMap) (k : Triplet) (n : Nat) :
    totalVal (incrBy m k n) = totalVal m + n := by
  induction m with
  | nil => simp [incrBy, setVal, getVal, totalVal]
  | cons e rest ih =>
    by_cases he : e.1 = k
    · simp only [incrBy, setVal, if_pos he, getVal, totalVal, List.map_cons, List.sum_cons]
      omega
    · rw [incrBy_cons_ne e rest k n he]
      simp only [totalVal, List.map_cons, List.sum_cons] at ih ⊢
      omega

theorem mem_keysOf_setVal (m : FreqMap) (k : Triplet) (v : Nat) (a : Triplet) :
    a ∈ keysOf (setVal m k v) ↔ a ∈ keysOf m ∨ a = k := by
  induction m with
  | nil => simp [setVal, keysOf]
  | cons e rest ih =>
    by_cases he : e.1 = k
    · simp only [setVal, if_pos he, keysOf, List.map_cons, List.mem_cons]
      rw [he]
      tauto
    · simp only [setVal, if_neg he, keysOf, List.map_cons, List.mem_cons]
      simp only [keysOf] at ih
      rw [ih]
      tauto

theorem nodup_keysOf_setVal (m : FreqMap) (k : Triplet) (v : Nat)
    (h : (keysOf m).Nodup) : (keysOf (setVal m k v)).Nodup := by
  induction m with
  | nil => simp [setVal, keysOf]
  | cons e rest ih =>
    simp only [keysOf, List.map_cons, List.nodup_cons] at h
    by_cases he : e.1 = k
    · simp only [setVal, if_pos he, keysOf, List.map_cons, List.nodup_cons]
      rw [← he]
      exact h
    · simp only [setVal, if_neg he, keysOf, List.map_cons, List.nodup_cons]
      refine ⟨fun hm => ?_, ih h.2⟩
      rcases (mem_keysOf_setVal rest k v e.1).1 hm with h1 | h1
      · exact h.1 h1
      · exact he h1

theorem totalVal_setVal_of_not_mem (m : FreqMap) (k : Triplet) (v : Nat)
    (h : k ∉ keysOf m) : totalVal (setVal m k v) = totalVal m + v := by
  induction m with
  | nil => simp [setVal, totalVal]
  | cons e rest ih =>
    simp only [keysOf, List.map_cons, List.mem_cons] at h
    push_neg at h
    rw [setVal, if_neg (fun he => h.1 he.symm)]
    simp only [totalVal, List.map_cons, List.sum_cons] at ih ⊢
    rw [ih (by simpa [keysOf] using h.2)]
    omega

/-- Sum of the counts stored under a given key (0 when absent). -/
def sumKey : FreqMap → Triplet → Nat
  | [], _ => 0
  | e :: rest, t => (if e.1 = t then e.2 else 0) + sumKey rest t

theorem sumKey_eq_zero_of_not_mem (m : FreqMap) (t : Triplet) (h : t ∉ keysOf m) :
    sumKey m t = 0 := by
  induction m with
  | nil => simp [sumKey]
  | cons e rest ih =>
    simp only [keysOf, List.map_cons, List.mem_cons] at h
    push_neg at h
    rw [sumKey, if_neg (fun he => h.1 he.symm), ih (by simpa [keysOf] using h.2)]

theorem sumKey_eq_getVal (m : FreqMap) (t : Triplet) (h : (keysOf m).Nodup) :
    sumKey m t = getVal m t := by
  induction m with
  | nil => simp [sumKey, getVal]
  | cons e rest ih =>
    simp only [keysOf, List.map_cons, List.nodup_cons] at h
    by_cases he : e.1 = t
    · rw [sumKey, if_pos he, getVal, if_pos he,
        sumKey_eq_zero_of_not_mem rest t (by rw [← he]; exact h.1)]
      omega
    · rw [sumKey, if_neg he, getVal, if_neg he, ih h.2]
      omega

/-! ## Fold lemmas for the sliding-window loop and the aggregation loop -/

theorem getVal_foldl_incr (f : Nat → Triplet) (t : Triplet) :
    ∀ (l : List Nat) (base : FreqMap),
      getVal (l.foldl (fun m i => incr m (f i)) base) t =
        getVal base t + (l.filter (fun i => decide (f i = t))).length := by
  intro l
  induction l with
  | nil => intro base; simp
  | cons i rest ih =>
    intro base
    rw [List.foldl_cons, ih, getVal_incr, List.filter_cons]
    by_cases h : f i = t
    · simp only [h, decide_True, if_pos rfl, if_true, List.length_cons]
      omega
    · simp only [if_neg (fun hh : t = f i => h hh.symm), h, decide_False]
      simp

theorem getVal_foldl_incrBy (t : Triplet) :
    ∀ (entries : List (Triplet × Nat)) (base : FreqMap),
      getVal (entries.foldl (fun fs e => incrBy fs e.1 e.2) base) t =
        getVal base t + sumKey entries t := by
  intro entries
  induction entries with
  | nil => intro base; simp [sumKey]
  | cons e rest ih =>
    intro base
    rw [List.foldl_cons, ih, getVal_incrBy, sumKey]
    by_cases h : e.1 = t
    · subst h
      rw [if_pos rfl, if_pos rfl]
      omega
    · rw [if_neg (fun hh : t = e.1 => h hh.symm), if_neg h]; omega

theorem nodup_keysOf_foldl_incr (f : Nat → Triplet) :
    ∀ (l : List Nat) (base : FreqMap), (keysOf base).Nodup →
      (keysOf (l.foldl (fun m i => incr m (f i)) base)).Nodup := by
  intro l
  induction l with
  | nil => intro base h; simpa using h
  | cons i rest ih =>
    intro base h
    rw [List.foldl_cons]
    exact ih _ (nodup_keysOf_setVal _ _ _ h)

theorem nodup_keysOf_make_triplet (morphemes : List String) :
    (keysOf (make_triplet morphemes)).Nodup := by
  rw [make_triplet]
  split
  · simp [keysOf]
  · exact nodup_keysOf_setVal _ _ _ (nodup_keysOf_setVal _ _ _
      (nodup_keysOf_foldl_incr _ _ _ (by simp [keysOf])))

theorem totalVal_foldl_incr (f : Nat → Triplet) :
    ∀ (l : List Nat) (base : FreqMap),
      totalVal (l.foldl (fun m i => incr m (f i)) base) = totalVal base + l.length := by
  intro l
  induction l with
  | nil => intro base; simp
  | cons i rest ih =>
    intro base
    rw [List.foldl_cons, ih]
    simp only [incr]
    rw [totalVal_incrBy]
    simp only [List.length_cons]
    omega

theorem mem_keysOf_foldl_incr (f : Nat → Triplet) (t : Triplet) :
    ∀ (l : List Nat) (base : FreqMap),
      t ∈ keysOf (l.foldl (fun m i => incr m (f i)) base) →
        t ∈ keysOf base ∨ ∃ i ∈ l, f i = t := by
  intro l
  induction l with
  | nil => intro base h; exact Or.inl h
  | cons i rest ih =>
    intro base h
    rw [List.foldl_cons] at h
    rcases ih _ h with h1 | h1
    · rcases (mem_keysOf_setVal base (f i) _ t).1 h1 with h2 | h2
      · exact Or.inl h2
      · exact Or.inr ⟨i, List.mem_cons_self i rest, h2.symm⟩
    · rcases h1 with ⟨j, hj, hfj⟩
      exact Or.inr ⟨j, List.mem_cons_of_mem i hj, hfj⟩

theorem getD_mem_of_lt (l : List String) (i : Nat) (h : i < l.length) :
    l.getD i "" ∈ l := by
  induction l generalizing i with
  | nil => simp at h
  | cons x rest ih =>
    cases i with
    | zero => exact List.mem_cons_self _ _
    | succ j =>
      exact List.mem_cons_of_mem x (ih j (by simp at h; omega))

/-! ## Claim C1 -/

theorem agg_getVal (tokenize : List Char → List String) (t : Triplet) :
    ∀ (sentences : List (List Char)) (base : FreqMap),
      getVal (sentences.foldl
        (fun freqs s => (make_triplet (tokenize s)).foldl (fun fs e => incrBy fs e.1 e.2) freqs)
        base) t =
        getVal base t + ((sentences.map (fun s => getVal (make_triplet (tokenize s)) t)).sum) := by
  intro sentences
  induction sentences with
  | nil => intro base; simp
  | cons s rest ih =>
    intro base
    rw [List.foldl_cons, ih, getVal_foldl_incrBy,
      sumKey_eq_getVal _ _ (nodup_keysOf_make_triplet _), List.map_cons, List.sum_cons]
    omega

/-- C1: the corpus-wide count that `make_triplet_freqs` assigns to every
triplet is the sum, over the sentences of the divided text, of that
sentence's local `_make_triplet` count (entries are created on first
contribution); in particular sentinel triplets contributed by several
sentences are summed, never overwritten. -/
theorem c1_aggregated_count_is_sum_over_sentences
    (tokenize : List Char → List String) (text : List Char) (t : Triplet) :
    getVal (make_triplet_freqs tokenize text) t =
      ((divide text).map (fun s => getVal (make_triplet (tokenize s)) t)).sum := by
  rw [make_triplet_freqs, agg_getVal]
  simp [getVal]

/-! ## Claim C2 -/

/-- C2: for every token sequence of length at least 3, the sliding-window
loop of `_make_triplet` gives every triplet the number of window positions
producing it (repeated interior windows accumulate), and on the concrete
four-token sequence `[A, A, A, A]` the map returned by `_make_triplet` holds
the entry `(A, A, A)` with count 2. -/
theorem c2_window_scan_counts_occurrences :
    (∀ (morphemes : List String), 3 ≤ morphemes.length → ∀ t : Triplet,
        getVal (windowCounts morphemes) t =
          ((List.range (morphemes.length - 2)).filter
            (fun i => decide (tripletAt morphemes i = t))).length) ∧
    getVal (make_triplet ["A", "A", "A", "A"]) ("A", "A", "A") = 2 := by
  constructor
  · intro morphemes _ t
    rw [windowCounts, getVal_foldl_incr]
    simp [getVal]
  · decide

theorem c2_window_scan_counts_occurrences_witness :
    3 ≤ (["a", "b", "a", "b"] : List String).length ∧
    getVal (windowCounts ["a", "b", "a", "b"]) ("a", "b", "a") =
      ((List.range ((["a", "b", "a", "b"] : List String).length - 2)).filter
        (fun i => decide (tripletAt ["a", "b", "a", "b"] i = ("a", "b", "a")))).length :=
  ⟨by decide, c2_window_scan_counts_occurrences.1 ["a", "b", "a", "b"] (by decide) ("a", "b", "a")⟩

/-! ## Claim C3 -/

/-- C3: for every token sequence of length at least 3, the map returned by
`_make_triplet` holds the `(BEGIN, tokens[0], tokens[1])` entry with count
exactly 1 and the `(tokens[-2], tokens[-1], END)` entry with count exactly 1
(both are plain assignments of 1, performed after the window scan). -/
theorem c3_sentinel_triplets_count_one (morphemes : List String) (h : 3 ≤ morphemes.length) :
    getVal (make_triplet morphemes) (BEGIN, morphemes.getD 0 "", morphemes.getD 1 "") = 1 ∧
    getVal (make_triplet morphemes)
      (morphemes.getD (morphemes.length - 2) "",
        morphemes.getD (morphemes.length - 1) "", END) = 1 := by
  rw [make_triplet, if_neg (by omega)]
  constructor
  · rw [getVal_setVal]
    by_cases hbe : (BEGIN, morphemes.getD 0 "", morphemes.getD 1 "") =
        (morphemes.getD (morphemes.length - 2) "",
          morphemes.getD (morphemes.length - 1) "", END)
    · rw [if_pos hbe]
    · rw [if_neg hbe, getVal_setVal, if_pos rfl]
  · rw [getVal_setVal, if_pos rfl]

theorem c3_sentinel_triplets_count_one_witness :
    3 ≤ (["x", "y", "z"] : List String).length ∧
    getVal (make_triplet ["x", "y", "z"]) (BEGIN, "x", "y") = 1 ∧
    getVal (make_triplet ["x", "y", "z"]) ("y", "z", END) = 1 :=
  ⟨by decide, c3_sentinel_triplets_count_one ["x", "y", "z"] (by decide)⟩

/-! ## Claim C4 -/

/-- C4: for every token sequence with fewer than 3 elements, `_make_triplet`
returns the empty map: no window triplets and no sentinel triplets. -/
theorem c4_short_sequence_empty_map (morphemes : List String)
    (h : morphemes.length < 3) : make_triplet morphemes = [] := by
  simp [make_triplet, h]

theorem c4_short_sequence_empty_map_witness :
    (["こんにちは", "。"] : List String).length < 3 ∧ make_triplet ["こんにちは", "。"] = [] :=
  ⟨by decide, c4_short_sequence_empty_map ["こんにちは", "。"] (by decide)⟩

/-! ## Claim C8 -/

theorem pos_setVal (m : FreqMap) (k : Triplet) (v : Nat)
    (hm : ∀ e ∈ m, 0 < e.2) (hv : 0 < v) : ∀ e ∈ setVal m k v, 0 < e.2 := by
  induction m with
  | nil =>
    intro e he
    simp only [setVal, List.mem_singleton] at he
    subst he; exact hv
  | cons x rest ih =>
    intro e he
    by_cases hx : x.1 = k
    · simp only [setVal, if_pos hx, List.mem_cons] at he
      rcases he with he | he
      · subst he; exact hv
      · exact hm e (List.mem_cons_of_mem x he)
    · simp only [setVal, if_neg hx, List.mem_cons] at he
      rcases he with he | he
      · rw [he]; exact hm x (List.mem_cons_self x rest)
      · exact ih (fun e' he' => hm e' (List.mem_cons_of_mem x he')) e he

theorem pos_incrBy (m : FreqMap) (k : Triplet) (n : Nat)
    (hm : ∀ e ∈ m, 0 < e.2) (hn : 0 < n) : ∀ e ∈ incrBy m k n, 0 < e.2 :=
  pos_setVal m k _ hm (by omega)

theorem pos_foldl_incr (f : Nat → Triplet) :
    ∀ (l : List Nat) (base : FreqMap), (∀ e ∈ base, 0 < e.2) →
      ∀ e ∈ l.foldl (fun m i => incr m (f i)) base, 0 < e.2 := by
  intro l
  induction l with
  | nil => intro base h; simpa using h
  | cons i rest ih =>
    intro base h
    rw [List.foldl_cons]
    exact ih _ (pos_incrBy base (f i) 1 h (by omega))

theorem pos_make_triplet (morphemes : List String) :
    ∀ e ∈ make_triplet morphemes, 0 < e.2 := by
  rw [make_triplet]
  split
  · simp
  · exact pos_setVal _ _ _ (pos_setVal _ _ _ (pos_foldl_incr _ _ _ (by simp)) (by omega))
      (by omega)

theorem pos_foldl_incrBy :
    ∀ (entries : List (Triplet × Nat)) (base : FreqMap),
      (∀ e ∈ entries, 0 < e.2) → (∀ e ∈ base, 0 < e.2) →
      ∀ e ∈ entries.foldl (fun fs e => incrBy fs e.1 e.2) base, 0 < e.2 := by
  intro entries
  induction entries with
  | nil => intro base _ hb; simpa using hb
  | cons x rest ih =>
    intro base hent hb
    rw [List.foldl_cons]
    exact ih _ (fun e he => hent e (List.mem_cons_of_mem x he))
      (pos_incrBy base x.1 x.2 hb (hent x (List.mem_cons_self x rest)))

theorem pos_agg (tokenize : List Char → List String) :
    ∀ (sentences : List (List Char)) (base : FreqMap), (∀ e ∈ base, 0 < e.2) →
      ∀ e ∈ sentences.foldl
        (fun freqs s => (make_triplet (tokenize s)).foldl (fun fs e => incrBy fs e.1 e.2) freqs)
        base, 0 < e.2 := by
  intro sentences
  induction sentences with
  | nil => intro base h; simpa using h
  | cons s rest ih =>
    intro base h
    rw [List.foldl_cons]
    exact ih _ (pos_foldl_incrBy _ _ (pos_make_triplet _) h)

/-- C8: every frequency map the pipeline produces — every per-sentence map
returned by `_make_triplet` and the aggregated map returned by
`make_triplet_freqs` — maps each present triplet key to a strictly positive
count; no key is present with count 0. -/
theorem c8_all_counts_positive :
    (∀ (morphemes : List String), ∀ e ∈ make_triplet morphemes, 0 < e.2) ∧
    (∀ (tokenize : List Char → List String) (text : List Char),
      ∀ e ∈ make_triplet_freqs tokenize text, 0 < e.2) := by
  refine ⟨fun morphemes => pos_make_triplet morphemes, fun tokenize text => ?_⟩
  rw [make_triplet_freqs]
  exact pos_agg tokenize (divide text) [] (by simp)

theorem c8_all_counts_positive_witness :
    0 < ((("a", "b", "c"), 1) : Triplet × Nat).2 :=
  c8_all_counts_positive.1 ["a", "b", "c"] (("a", "b", "c"), 1) (by decide)

/-! ## Claim C9 -/

/-- C9: for every token sequence of length `n ≥ 3` containing neither
sentinel string as a token, the counts of the `_make_triplet` map sum to
`n`: `n - 2` interior windows plus one BEGIN triplet plus one END triplet,
with no collisions between the three groups. -/
theorem c9_total_count_eq_length (morphemes : List String) (h3 : 3 ≤ morphemes.length)
    (hB : BEGIN ∉ morphemes) (hE : END ∉ morphemes) :
    totalVal (make_triplet morphemes) = morphemes.length := by
  rw [make_triplet, if_neg (by omega)]
  have hwin : totalVal (windowCounts morphemes) = morphemes.length - 2 := by
    rw [windowCounts, totalVal_foldl_incr]
    simp [totalVal]
  have hkeys : ∀ t ∈ keysOf (windowCounts morphemes),
      t.1 ∈ morphemes ∧ t.2.2 ∈ morphemes := by
    intro t ht
    rcases mem_keysOf_foldl_incr _ t _ _ ht with h1 | h1
    · simp [keysOf] at h1
    · rcases h1 with ⟨i, hi, hfi⟩
      rw [List.mem_range] at hi
      constructor
      · rw [← hfi]
        exact getD_mem_of_lt _ _ (by omega)
      · rw [← hfi]
        exact getD_mem_of_lt _ _ (by omega)
  have hbT : (BEGIN, morphemes.getD 0 "", morphemes.getD 1 "")
      ∉ keysOf (windowCounts morphemes) := by
    intro hmem
    exact hB ((hkeys _ hmem).1)
  have heT : (morphemes.getD (morphemes.length - 2) "",
        morphemes.getD (morphemes.length - 1) "", END)
      ∉ keysOf (setVal (windowCounts morphemes)
        (BEGIN, morphemes.getD 0 "", morphemes.getD 1 "") 1) := by
    intro hmem
    rcases (mem_keysOf_setVal _ _ _ _).1 hmem with h1 | h1
    · exact hE ((hkeys _ h1).2)
    · have hfst : morphemes.getD (morphemes.length - 2) "" = BEGIN :=
        congrArg Prod.fst h1
      refine hB ?_
      rw [← hfst]
      exact getD_mem_of_lt _ _ (by omega)
  rw [totalVal_setVal_of_not_mem _ _ _ heT, totalVal_setVal_of_not_mem _ _ _ hbT, hwin]
  omega

theorem c9_total_count_eq_length_witness :
    3 ≤ (["a", "b", "c", "d"] : List String).length ∧
    BEGIN ∉ (["a", "b", "c", "d"] : List String) ∧
    END ∉ (["a", "b", "c", "d"] : List String) ∧
    totalVal (make_triplet ["a", "b", "c", "d"]) = (["a", "b", "c", "d"] : List String).length :=
  ⟨by decide, by decide, by decide,
    c9_total_count_eq_length ["a", "b", "c", "d"] (by decide) (by decide) (by decide)⟩

/-! ## Claim C6 -/

/-- C6: calling `save` with `init=False` performs no row insertion and does
not execute the schema script: the completed operations are exactly connect,
commit, close, none of them mutates the table, and the stored rows are left
unchanged whatever the external schema script would have done. -/
theorem c6_no_reinit_no_writes (triplet_freqs : FreqMap) (sOk iOk : Bool)
    (schemaEff : List (String × String × String × Nat) → List (String × String × String × Nat))
    (rows : List (String × String × String × Nat)) :
    (save triplet_freqs false sOk iOk).1 = [DBEvent.connect, DBEvent.commit, DBEvent.close] ∧
    (save triplet_freqs false sOk iOk).1.filter isMutation = [] ∧
    applyEvents schemaEff (save triplet_freqs false sOk iOk).1 rows = rows ∧
    (save triplet_freqs false sOk iOk).2 = true :=
  ⟨rfl, rfl, rfl, rfl⟩

/-! ## Claim C7 -/

/-- C7 fails on the code: with `init=True` and a failing schema-script
execution, `save` acquires the connection and then propagates the exception
without `con.close()` ever being reached, so the connection is not released
on this exit path. -/
theorem c7_counterexample_close_skipped_on_failure :
    (save [] true false true).2 = false ∧
    ((save [] true false true).1).count DBEvent.connect = 1 ∧
    ((save [] true false true).1).count DBEvent.close = 0 := by
  decide

/-- C7 amended: the connection is acquired as the first operation of every
call; on normal completion the last completed operation closes the
connection, but a schema-execution or insertion failure propagates with the
connection left unclosed; no connection state crosses calls. -/
theorem c7_amended_connection_lifecycle (triplet_freqs : FreqMap) (init sOk iOk : Bool) :
    ((save triplet_freqs init sOk iOk).1).head? = some DBEvent.connect ∧
    ((save triplet_freqs init sOk iOk).2 = true →
      ((save triplet_freqs init sOk iOk).1).getLast? = some DBEvent.close) ∧
    ((save triplet_freqs init sOk iOk).2 = false →
      ((save triplet_freqs init sOk iOk).1).count DBEvent.close = 0) := by
  cases init <;> cases sOk <;> cases iOk <;>
    refine ⟨rfl, fun hs => ?_, fun hf => ?_⟩ <;> first | rfl | simp_all [save]

theorem c7_amended_connection_lifecycle_witness :
    (save [] true false true).2 = false ∧
    ((save [] true false true).1).count DBEvent.close = 0 :=
  ⟨by decide, (c7_amended_connection_lifecycle [] true false true).2.2 (by decide)⟩

/-! ## Claim C5

The claim words `_divide` as: insert a line break immediately after every
delimiter occurrence, split on the line-break characters `\n`, `\r\n` and
bare `\r`, strip each piece.  The program's `unicode.splitlines()` also
splits on the further Unicode boundaries `\x0b`, `\x0c`, `\x1c`-`\x1e`,
`\x85`, U+2028 and U+2029, so the claimed procedure disagrees with the code
on inputs containing one of those characters. -/

/-- Spec wording: insert a line break immediately after every delimiter
occurrence, so the delimiter is retained at the end of its sentence. -/
def insertBreakAfterDelims (text : List Char) : List Char :=
  text.foldr (fun c acc => if isDelim c then c :: '\n' :: acc else c :: acc) []

/-- The split step exactly as claim C5 words it: only `\n`, `\r\n` and bare
`\r` are treated as line breaks. -/
def splitOnLineBreaks : List Char → List (List Char)
  | [] => []
  | [c] => if c = '\n' || c = '\r' then [[]] else [[c]]
  | c :: d :: rest =>
    if c = '\n' then [] :: splitOnLineBreaks (d :: rest)
    else if c = '\r' then
      if d = '\n' then [] :: splitOnLineBreaks rest else [] :: splitOnLineBreaks (d :: rest)
    else consHead c (splitOnLineBreaks (d :: rest))

/-- The segmentation procedure exactly as claim C5 words it. -/
def divideSpec (text : List Char) : List (List Char) :=
  (splitOnLineBreaks (insertBreakAfterDelims text)).map strip

/-- C5 fails on the code: on the input `"a\x0bb"` the program splits at the
vertical tab (a `unicode.splitlines` boundary) into the two sentences `"a"`
and `"b"`, while the claimed three-break procedure keeps the single sentence
`"a\x0bb"`. -/
theorem c5_counterexample_vertical_tab :
    divide ['a', '\x0b', 'b'] = [['a'], ['b']] ∧
    divideSpec ['a', '\x0b', 'b'] = [['a', '\x0b', 'b']] ∧
    divide ['a', '\x0b', 'b'] ≠ divideSpec ['a', '\x0b', 'b'] :=
  ⟨by decide, by decide, by decide⟩

/-- Drop one leading line feed (the second half of a `\r\n` pair). -/
def dropLeadingLF (l : List Char) : List Char :=
  match l with
  | [] => []
  | d :: r => if d = '\n' then r else d :: r

theorem dropLeadingLF_length (l : List Char) : (dropLeadingLF l).length ≤ l.length := by
  cases l with
  | nil => simp [dropLeadingLF]
  | cons d r =>
    simp only [dropLeadingLF]
    split <;> simp

/-- Amended spec wording for the split step: split on any Unicode
line-boundary character, with `\r\n` consumed as a single boundary. -/
def splitOnLineBoundaries (cs : List Char) : List (List Char) :=
  match cs with
  | [] => []
  | c :: rest =>
    if c = '\r' then [] :: splitOnLineBoundaries (dropLeadingLF rest)
    else if isLineBreak c then [] :: splitOnLineBoundaries rest
    else consHead c (splitOnLineBoundaries rest)
termination_by cs.length
decreasing_by
  all_goals simp only [List.length_cons]
  · exact Nat.lt_succ_of_le (dropLeadingLF_length rest)
  · omega
  · omega

/-- The segmentation procedure as amended: the split step covers the full
Unicode line-boundary class. -/
def divideSpecAmended (text : List Char) : List (List Char) :=
  (splitOnLineBoundaries (insertBreakAfterDelims text)).map strip

theorem subDelims_eq_insertBreakAfterDelims (text : List Char) :
    subDelims text = insertBreakAfterDelims text := by
  induction text with
  | nil => rfl
  | cons c rest ih =>
    simp only [subDelims, insertBreakAfterDelims, List.foldr_cons] at *
    split <;> simp_all

theorem splitlines_eq_splitOnLineBoundaries :
    ∀ cs : List Char, splitlines cs = splitOnLineBoundaries cs
  | [] => by simp [splitlines, splitOnLineBoundaries]
  | [c] => by
    by_cases h1 : c = '\r'
    · subst h1
      have hb : isLineBreak '\r' = true := by decide
      simp [splitlines, splitOnLineBoundaries, dropLeadingLF, hb]
    · by_cases h2 : isLineBreak c = true
      · simp [splitlines, splitOnLineBoundaries, h1, h2]
      · simp [splitlines, splitOnLineBoundaries, h1, h2, consHead]
  | c :: d :: rest => by
    have ih1 := splitlines_eq_splitOnLineBoundaries (d :: rest)
    have ih2 := splitlines_eq_splitOnLineBoundaries rest
    by_cases h1 : c = '\r'
    · subst h1
      by_cases hd : d = '\n'
      · subst hd
        simp [splitlines, splitOnLineBoundaries, dropLeadingLF, ih2]
      · simp [splitlines, splitOnLineBoundaries, dropLeadingLF, hd, ih1]
    · by_cases h2 : isLineBreak c = true
      · simp [splitlines, splitOnLineBoundaries, h1, h2, ih1]
      · simp [splitlines, splitOnLineBoundaries, h1, h2, ih1, consHead]

theorem subDelims_eq_self (cs : List Char) (h : ∀ c ∈ cs, isDelim c = false) :
    subDelims cs = cs := by
  induction cs with
  | nil => rfl
  | cons c rest ih =>
    simp only [subDelims, h c (List.mem_cons_self c rest)]
    simp only [Bool.false_eq_true, if_false, List.cons.injEq, true_and]
    exact ih (fun c' hc' => h c' (List.mem_cons_of_mem c hc'))

theorem splitlines_no_breaks : ∀ (cs : List Char), cs ≠ [] →
    (∀ c ∈ cs, isLineBreak c = false) → splitlines cs = [cs]
  | [], hne, _ => absurd rfl hne
  | [c], _, h => by
    have hc := h c (List.mem_cons_self _ _)
    simp [splitlines, hc]
  | c :: d :: rest, _, h => by
    have hc := h c (List.mem_cons_self _ _)
    have hcr : ¬ c = '\r' := by
      intro h'
      subst h'
      exact absurd hc (by decide)
    have hrec := splitlines_no_breaks (d :: rest) (by simp)
      (fun c' hc' => h c' (List.mem_cons_of_mem c hc'))
    simp [splitlines, hcr, hc, hrec, consHead]

/-- C5 amended: `_divide` computes the claimed procedure with the split step
widened to the program's full Unicode line-boundary class — insert a line
break after every delimiter occurrence so the delimiter stays at the end of
its sentence, split on any line-boundary character (`\n`, `\r\n`, bare `\r`,
`\x0b`, `\x0c`, `\x1c`-`\x1e`, `\x85`, U+2028, U+2029), strip each piece; a
trailing fragment with no terminating delimiter is still emitted and the
empty string yields the empty sequence. -/
theorem c5_amended_divide_full_boundary_spec :
    (∀ text : List Char, divide text = divideSpecAmended text) ∧
    divide [] = [] ∧
    (∀ text : List Char, text ≠ [] →
      (∀ c ∈ text, isDelim c = false ∧ isLineBreak c = false) →
      divide text = [strip text]) := by
  refine ⟨fun text => ?_, rfl, fun text hne h => ?_⟩
  · unfold divide divideSpecAmended
    rw [subDelims_eq_insertBreakAfterDelims, splitlines_eq_splitOnLineBoundaries]
  · unfold divide
    rw [subDelims_eq_self text (fun c hc => (h c hc).1),
      splitlines_no_breaks text hne (fun c hc => (h c hc).2)]
    simp

theorem c5_amended_divide_full_boundary_spec_witness :
    ((['a', 'b', 'c'] : List Char) ≠ []) ∧ divide ['a', 'b', 'c'] = [strip ['a', 'b', 'c']] :=
  ⟨by decide, c5_amended_divide_full_boundary_spec.2.2 ['a', 'b', 'c'] (by decide) (by decide)⟩

/-! ## Claim C10 -/

/-- Intermediate invariant of the substituted text: every delimiter
occurrence is immediately followed by a line feed (in particular no
delimiter is the last character). -/
def delimNL : List Char → Prop
  | [] => True
  | [c] => isDelim c = false
  | c :: d :: rest => (isDelim c = true → d = '\n') ∧ delimNL (d :: rest)

theorem delimNL_tail (c : Char) (l : List Char) (h : delimNL (c :: l)) : delimNL l := by
  cases l with
  | nil => trivial
  | cons d rest => exact h.2

theorem delimNL_cons_nondelim (c : Char) (l : List Char) (hc : isDelim c = false)
    (h : delimNL l) : delimNL (c :: l) := by
  cases l with
  | nil => exact hc
  | cons d rest => exact ⟨fun hcd => absurd hcd (by simp [hc]), h⟩

theorem delimNL_subDelims (cs : List Char) : delimNL (subDelims cs) := by
  induction cs with
  | nil => trivial
  | cons c rest ih =>
    by_cases hc : isDelim c = true
    · simp only [subDelims, if_pos hc]
      exact ⟨fun _ => rfl, delimNL_cons_nondelim _ _ (by decide) ih⟩
    · simp only [subDelims, if_neg hc]
      exact delimNL_cons_nondelim _ _ (by simpa using hc) ih

/-- A clean output line: no line-boundary characters, and a delimiter at
most in the final position. -/
def okLine (l : List Char) : Prop :=
  (∀ c ∈ l, isLineBreak c = false) ∧ (∀ c ∈ l.dropLast, isDelim c = false)

theorem okLine_nil : okLine [] := ⟨by simp, by simp⟩

theorem okLine_single (c : Char) (hb : isLineBreak c = false) : okLine [c] := by
  refine ⟨fun x hx => ?_, by simp⟩
  rw [List.mem_singleton] at hx
  subst hx
  exact hb

theorem splitlines_lf (rest : List Char) :
    splitlines ('\n' :: rest) = [] :: splitlines rest := by
  have h1 : isLineBreak '\n' = true := by decide
  have h2 : ¬ ('\n' : Char) = '\r' := by decide
  cases rest with
  | nil => simp [splitlines, h1]
  | cons d r => simp [splitlines, h1, h2]

theorem okLine_consHead (c : Char) (L : List (List Char)) (hc : isDelim c = false)
    (hb : isLineBreak c = false) (hL : ∀ l ∈ L, okLine l) :
    ∀ l ∈ consHead c L, okLine l := by
  cases L with
  | nil =>
    intro l hl
    simp only [consHead, List.mem_singleton] at hl
    subst hl
    exact okLine_single c hb
  | cons l0 ls =>
    intro l hl
    simp only [consHead, List.mem_cons] at hl
    rcases hl with hl | hl
    · subst hl
      have h0 := hL l0 (List.mem_cons_self _ _)
      constructor
      · intro x hx
        rcases List.mem_cons.1 hx with hx | hx
        · subst hx; exact hb
        · exact h0.1 x hx
      · intro x hx
        cases l0 with
        | nil => simp at hx
        | cons y ys =>
          rw [List.dropLast_cons₂, List.mem_cons] at hx
          rcases hx with hx | hx
          · subst hx; exact hc
          · exact h0.2 x hx
    · exact hL l (List.mem_cons_of_mem _ hl)

theorem okLine_splitlines : ∀ cs : List Char, delimNL cs → ∀ l ∈ splitlines cs, okLine l
  | [], _ => by intro l hl; simp [splitlines] at hl
  | [c], _ => by
    intro l hl
    by_cases hb : isLineBreak c = true
    · simp only [splitlines, if_pos hb, List.mem_singleton] at hl
      subst hl
      exact okLine_nil
    · simp only [splitlines, if_neg hb, List.mem_singleton] at hl
      subst hl
      exact okLine_single c (by simpa using hb)
  | c :: d :: rest, h => by
    intro l hl
    have hcd : isDelim c = true → d = '\n' := h.1
    have hdr : delimNL (d :: rest) := h.2
    by_cases h1 : c = '\r'
    · subst h1
      by_cases hd : d = '\n'
      · subst hd
        simp [splitlines] at hl
        rcases hl with hl | hl
        · subst hl; exact okLine_nil
        · exact okLine_splitlines rest (delimNL_tail _ _ hdr) l hl
      · simp [splitlines, hd] at hl
        rcases hl with hl | hl
        · subst hl; exact okLine_nil
        · exact okLine_splitlines (d :: rest) hdr l hl
    · by_cases h2 : isLineBreak c = true
      · simp [splitlines, h1, h2] at hl
        rcases hl with hl | hl
        · subst hl; exact okLine_nil
        · exact okLine_splitlines (d :: rest) hdr l hl
      · by_cases hc : isDelim c = true
        · have hd : d = '\n' := hcd hc
          subst hd
          have hsl : splitlines (c :: '\n' :: rest) = [c] :: splitlines rest := by
            simp [splitlines, h1, h2, splitlines_lf, consHead]
          rw [hsl, List.mem_cons] at hl
          rcases hl with hl | hl
          · subst hl
            exact okLine_single c (by simpa using h2)
          · exact okLine_splitlines rest (delimNL_tail _ _ hdr) l hl
        · simp only [splitlines, if_neg h1, if_neg h2] at hl
          exact okLine_consHead c _ (by simpa using hc) (by simpa using h2)
            (okLine_splitlines (d :: rest) hdr) l hl

theorem mem_of_mem_strip (l : List Char) (c : Char) (h : c ∈ strip l) : c ∈ l := by
  simp only [strip, List.mem_reverse] at h
  have h2 : c ∈ (l.dropWhile isPySpace).reverse :=
    List.Sublist.subset (List.dropWhile_sublist _) h
  rw [List.mem_reverse] at h2
  exact List.Sublist.subset (List.dropWhile_sublist _) h2

theorem isDelim_not_space (c : Char) (h : isDelim c = true) : isPySpace c = false := by
  simp only [isDelim, Bool.or_eq_true, beq_iff_eq] at h
  rcases h with (h | h) | h <;> subst h <;> decide

theorem strip_append_nonspace (A : List Char) (d : Char) (hd : isPySpace d = false) :
    strip (A ++ [d]) = (A.dropWhile isPySpace) ++ [d] := by
  have h1 : (A ++ [d]).dropWhile isPySpace = (A.dropWhile isPySpace) ++ [d] := by
    rw [List.dropWhile_append]
    split
    · next hemp =>
      rw [List.isEmpty_iff] at hemp
      rw [hemp, List.nil_append]
      simp [List.dropWhile_cons, hd]
    · rfl
  rw [strip, h1, List.reverse_append, List.reverse_singleton, List.singleton_append,
    List.dropWhile_cons, hd]
  simp

theorem okLine_strip (l : List Char) (h : okLine l) : okLine (strip l) := by
  refine ⟨fun c hc => h.1 c (mem_of_mem_strip l c hc), ?_⟩
  by_cases hall : ∀ c ∈ l, isDelim c = false
  · intro c hc
    exact hall c (mem_of_mem_strip l c ((List.dropLast_sublist _).subset hc))
  · push_neg at hall
    obtain ⟨c0, hc0, hc0d⟩ := hall
    have hc0d' : isDelim c0 = true := by simpa using hc0d
    have hlne : l ≠ [] := by
      intro h'
      subst h'
      simp at hc0
    have hdlast : isDelim (l.getLast hlne) = true := by
      rcases List.mem_append.1 ((List.dropLast_append_getLast hlne).symm ▸ hc0) with hx | hx
      · exact absurd (h.2 c0 hx) (by simp [hc0d'])
      · rw [List.mem_singleton] at hx
        rw [← hx]
        exact hc0d'
    have hst : strip l = (l.dropLast.dropWhile isPySpace) ++ [l.getLast hlne] := by
      conv_lhs => rw [← List.dropLast_append_getLast hlne]
      exact strip_append_nonspace _ _ (isDelim_not_space _ hdlast)
    rw [hst, List.dropLast_concat]
    intro c hc
    exact h.2 c ((List.dropWhile_sublist _).subset hc)

/-- C10: every sentence returned by `_divide` contains no line-break
characters, and a delimiter character can occur only as the sentence's final
character, never in the interior (i.e. never among all characters but the
last). -/
theorem c10_sentences_no_breaks_delim_final (text : List Char) :
    ∀ s ∈ divide text,
      (∀ c ∈ s, c ≠ '\n' ∧ c ≠ '\r') ∧ (∀ c ∈ s.dropLast, isDelim c = false) := by
  intro s hs
  unfold divide at hs
  rcases List.mem_map.1 hs with ⟨l, hl, rfl⟩
  have hok := okLine_strip l (okLine_splitlines _ (delimNL_subDelims text) l hl)
  refine ⟨fun c hc => ?_, hok.2⟩
  have hb := hok.1 c hc
  refine ⟨fun h' => ?_, fun h' => ?_⟩
  · subst h'; exact absurd hb (by decide)
  · subst h'; exact absurd hb (by decide)

theorem c10_sentences_no_breaks_delim_final_witness :
    ('a' ≠ '\n' ∧ 'a' ≠ '\r') ∧ isDelim 'a' = false :=
  ⟨(c10_sentences_no_breaks_delim_final ['a', 'b', '。', 'c'] ['a', 'b', '。']
      (by decide)).1 'a' (by decide),
   (c10_sentences_no_breaks_delim_final ['a', 'b', '。', 'c'] ['a', 'b', '。']
      (by decide)).2 'a' (by decide)⟩
